import Mathlib

/-!
Verification development for the gta command ("gotta test 'em all").

The definitions below are a shallow embedding of the program's main file
(RunGTA, simpleRootManifest, prepManifest) and of the vendored godep
loader (AsMetadataPair).  External collaborators (the gps solver, the
source manager, version matching for branches and semver ranges, the
subprocess runner and the tree writer) are represented by oracle
parameters; everything the program itself computes is embedded directly.
Filesystem state at the vendor path and its backup sibling is modelled
explicitly, together with the trace of on-disk states the run moves
through.
-/

set_option autoImplicit false

namespace Gta

/-- Candidate versions are modelled as their raw string tokens. -/
abbrev Version := String

/-- Project roots (canonical dependency identifiers) are strings. -/
abbrev ProjectRoot := String

/-- Embeds gps.ProjectIdentifier: a root plus an optional network name. -/
structure ProjectIdentifier where
  projectRoot : ProjectRoot
  networkName : String := ""
deriving DecidableEq, Repr

/-- Embeds the constraints the program builds: gps.Any, gps.NewBranch,
gps.NewVersion / a bare version used as a constraint, and a semver range.
Matching semantics for branches and semver ranges belong to the external
gps collaborator and are supplied as oracles to Constraint.matches. -/
inductive Constraint where
  | any
  | branch (name : String)
  | ver (tag : String)
  | semverRange (range : String)
deriving DecidableEq, Repr

/-- Modelled from the spec: VersionSpec.matches.  Any matches every
version; ExactVersion matches exactly the version with that tag; branch
and semver-range matching are delegated to the external collaborator,
here passed in as the oracles bm and sv. -/
def Constraint.matches (bm sv : String → Version → Bool) : Constraint → Version → Bool
  | Constraint.any, _ => true
  | Constraint.branch n, v => bm n v
  | Constraint.ver t, v => v == t
  | Constraint.semverRange r, v => sv r v

/-- Embeds gps.ProjectConstraint: an identifier paired with a constraint. -/
structure ProjectConstraint where
  ident : ProjectIdentifier
  constraint : Constraint
deriving DecidableEq, Repr

/-- A solution is an assignment of versions to project identifiers; its
internals are never inspected by the program under study. -/
structure Solution where
  projects : List (ProjectIdentifier × Version)
deriving DecidableEq, Repr

/-! ### Association-list model of Go maps -/

/-- Lookup of the first binding for a key in an association list. -/
def assocLookup {K V : Type} [DecidableEq K] : List (K × V) → K → Option V
  | [], _ => none
  | (k', v') :: rest, k => if k' = k then some v' else assocLookup rest k

/-- Go map assignment m[k] = v: replaces the binding for k if present,
otherwise adds one. -/
def assocUpdate {K V : Type} [DecidableEq K] : List (K × V) → K → V → List (K × V)
  | [], k, v => [(k, v)]
  | (k', v') :: rest, k, v =>
    if k' = k then (k', v) :: rest else (k', v') :: assocUpdate rest k v

/-- Number of bindings carrying the given key. -/
def countKey {K V : Type} [DecidableEq K] (l : List (K × V)) (k : K) : Nat :=
  l.countP (fun p => decide (p.1 = k))

/-- A Go map value: entries = none models a nil map, entries = some l a
live map with the given bindings.  Reads from a nil map are legal in Go
(they return the zero value); writes to a nil map panic, which the
insert operation models by returning none. -/
structure GoMap (K V : Type) where
  entries : Option (List (K × V))
deriving DecidableEq, Repr

/-- The non-nil empty map produced by make. -/
def GoMap.empty {K V : Type} : GoMap K V := ⟨some []⟩

/-- Go map read m[k]: total, returns none when the key is absent or the
map is nil. -/
def GoMap.find {K V : Type} [DecidableEq K] (m : GoMap K V) (k : K) : Option V :=
  match m.entries with
  | none => none
  | some l => assocLookup l k

/-- Go map write m[k] = v: returns none (a panic) on a nil map. -/
def GoMap.insert {K V : Type} [DecidableEq K] (m : GoMap K V) (k : K) (v : V) :
    Option (GoMap K V) :=
  match m.entries with
  | none => none
  | some l => some ⟨some (assocUpdate l k v)⟩

/-! ### prepManifest -/

/-- The shape of the manifest handed to prepManifest: the two constraint
slices returned by DependencyConstraints and TestDependencyConstraints. -/
structure GpsManifest where
  constraints : List ProjectConstraint
  testConstraints : List ProjectConstraint
deriving DecidableEq, Repr

/-- Embeds simpleRootManifest (the two maps the program fills; the
override and ignore fields are never populated by prepManifest). -/
structure SimpleRootManifest where
  c : GoMap ProjectRoot ProjectConstraint
  tc : GoMap ProjectRoot ProjectConstraint
deriving DecidableEq, Repr

/-- The loop "for _, d := range ds { rm.c[d.Ident.ProjectRoot] = d }",
with the possibility of a nil-map panic threaded through Option. -/
def insertAll : GoMap ProjectRoot ProjectConstraint → List ProjectConstraint →
    Option (GoMap ProjectRoot ProjectConstraint)
  | m, [] => some m
  | m, d :: rest =>
    match m.insert d.ident.projectRoot d with
    | none => none
    | some m2 => insertAll m2 rest

/-- Embeds prepManifest: fresh non-nil maps, early return on a nil
manifest, else copy both constraint slices keyed by project root. -/
def prepManifest (m : Option GpsManifest) : Option SimpleRootManifest :=
  match m with
  | none => some ⟨GoMap.empty, GoMap.empty⟩
  | some mm =>
    match insertAll GoMap.empty mm.constraints, insertAll GoMap.empty mm.testConstraints with
    | some c, some tc => some ⟨c, tc⟩
    | _, _ => none

/-! ### Version filtering -/

/-- Embeds the candidate filter loop of RunGTA: append each catalog
version matched by the focal constraint, in catalog order. -/
def filterVersions (p : Version → Bool) (vlist : List Version) : List Version :=
  vlist.foldl (fun vl v => if p v then vl ++ [v] else vl) []

/-- Embeds the filter followed by the emptiness check of RunGTA: an
empty filtered list is a fatal error before anything else happens. -/
def filterAndCheck (p : Version → Bool) (vlist : List Version) :
    Except String (List Version) :=
  let vl := filterVersions p vlist
  if vl.length = 0 then Except.error "NoMatchingVersions" else Except.ok vl

/-! ### The sweep -/

/-- Result of one solver invocation, mirroring the s/err pair of the
program's solnOrErr record. -/
inductive SolveRes where
  | ok (s : Solution)
  | err (e : String)
deriving DecidableEq, Repr

/-- One per-candidate outcome record of the sweep. -/
structure OutcomeRecord where
  v : Version
  res : SolveRes
deriving DecidableEq, Repr

/-- Whether the record carries a solver failure. -/
def OutcomeRecord.isErr : OutcomeRecord → Bool
  | ⟨_, SolveRes.err _⟩ => true
  | ⟨_, SolveRes.ok _⟩ => false

/-- The mutable constraint map rm.c threaded through the sweep. -/
abbrev ConstraintMap := List (ProjectRoot × ProjectConstraint)

/-- Embeds the focal-entry setup of RunGTA: reuse the identifier of the
baseline entry for the focal root when present, else a fresh identifier
with only the root set. -/
def initialFocusIdent (base : ConstraintMap) (root : ProjectRoot) : ProjectIdentifier :=
  match assocLookup base root with
  | some pc => pc.ident
  | none => ⟨root, ""⟩

/-- Embeds the sweep loop of RunGTA.  Each iteration overwrites the
focal entry of the shared constraint map (focus.Constraint = v;
rm.c[root] = focus) and then invokes the external solver, which observes
the whole map.  Returns the final map, the outcome records in iteration
order, and the sequence of maps the solver observed (the ghost third
component records the manifest passed to each Prepare call). -/
def sweep (solve : ConstraintMap → Version → SolveRes) (root : ProjectRoot)
    (fid : ProjectIdentifier) :
    ConstraintMap → List Version → ConstraintMap × List OutcomeRecord × List ConstraintMap
  | st, [] => (st, [], [])
  | st, v :: vs =>
    let st1 := assocUpdate st root ⟨fid, Constraint.ver v⟩
    let soe := solve st1 v
    let rest := sweep solve root fid st1 vs
    (rest.1, ⟨v, soe⟩ :: rest.2.1, st1 :: rest.2.2)

/-! ### Filesystem model and the run phase -/

/-- On-disk state of the two paths the run touches: the vendor directory
and its sibling backup path _origvendor.  A some value is a directory
present with the given (byte) contents; none means the path is absent.
Renaming onto a path occupied by a directory with contents is modelled
as failing, as the POSIX rename of the Go runtime does. -/
structure FS where
  vendor : Option String
  backup : Option String
deriving DecidableEq, Repr

/-- Outcome of one gps.WriteDepTree call, decided by the external
collaborator: on success the tree contents, on failure whatever contents
the collaborator left behind at the vendor path (none if it left the
path absent). -/
inductive WriteOutcome where
  | ok (tree : String)
  | fail (leftover : Option String)
deriving DecidableEq, Repr

/-- Whether the tree write succeeded. -/
def WriteOutcome.isOk : WriteOutcome → Bool
  | WriteOutcome.ok _ => true
  | WriteOutcome.fail _ => false

/-- Outcome of one validation subprocess: a spawn failure, or an exit
with the given status code and captured combined output. -/
inductive CmdOutcome where
  | spawnErr (msg : String)
  | exited (code : Nat) (out : String)
deriving DecidableEq, Repr

/-- CombinedOutput returns a non-nil error exactly on a spawn failure or
a nonzero exit status. -/
def cmdFailed : CmdOutcome → Bool
  | CmdOutcome.spawnErr _ => true
  | CmdOutcome.exited code _ => code != 0

/-- External observations for one candidate: the result of materializing
its tree and the result of running the validation command against it. -/
structure CandObs where
  write : WriteOutcome
  cmd : CmdOutcome
deriving DecidableEq, Repr

/-- Splits a character list at every character satisfying p, keeping
empty pieces, as Go's strings.Split does for a one-character separator:
an empty input yields one empty piece, and n separator occurrences yield
n + 1 pieces. -/
def splitCharsWhen (p : Char → Bool) : List Char → List (List Char)
  | [] => [[]]
  | c :: rest =>
    if p c then [] :: splitCharsWhen p rest
    else
      match splitCharsWhen p rest with
      | [] => [[c]]
      | t :: ts => (c :: t) :: ts

/-- Embeds strings.Split(run, " "): the validation command line is cut
at every single space character (consecutive spaces produce empty
tokens; no other character separates). -/
def tokenizeRun (run : String) : List String :=
  (splitCharsWhen (fun c => c == ' ') run.toList).map (fun cs => ⟨cs⟩)

/-- Observable events of the run phase: a failed tree write, or an
execution of the validation command (program, arguments, working
directory inherited from the process, and outcome). -/
inductive RunEvent where
  | treeWriteFail (v : Version)
  | cmdExec (v : Version) (prog : String) (args : List String) (cwd : String)
      (outcome : CmdOutcome)
deriving DecidableEq, Repr

/-- State threaded through the per-candidate loop of the run phase:
current filesystem, the trace of filesystem states after each mutation
of the vendor path, the fail flag, and the events so far. -/
structure LoopState where
  fs : FS
  trace : List FS
  fail : Bool
  events : List RunEvent
deriving DecidableEq, Repr

/-- Embeds one iteration of the outcome loop of RunGTA: a solver failure
only sets the fail flag; with no validation command the solution is just
reported; otherwise the tree is written (a failure leaves whatever the
collaborator left and skips both the command and the cleanup), the
command is executed with the whitespace-free single-space tokens, and
the tree is removed afterwards. -/
def runLoopStep (run : String) (toks : List String) (wd : String)
    (obs : Version → CandObs) (st : LoopState) (soln : OutcomeRecord) : LoopState :=
  match soln.res with
  | SolveRes.err _ => { st with fail := true }
  | SolveRes.ok _ =>
    if run = "" then st
    else
      match (obs soln.v).write with
      | WriteOutcome.fail leftover =>
        let fsW : FS := ⟨leftover, st.fs.backup⟩
        { fs := fsW, trace := st.trace ++ [fsW], fail := true,
          events := st.events ++ [RunEvent.treeWriteFail soln.v] }
      | WriteOutcome.ok tree =>
        let fsW : FS := ⟨some tree, st.fs.backup⟩
        let outcome := (obs soln.v).cmd
        let ev := RunEvent.cmdExec soln.v (toks.headD "") toks.tail wd outcome
        let fsR : FS := ⟨none, st.fs.backup⟩
        { fs := fsR, trace := st.trace ++ [fsW, fsR],
          fail := st.fail || cmdFailed outcome,
          events := st.events ++ [ev] }

/-- The whole outcome loop of RunGTA over the recorded solutions. -/
def runLoop (run : String) (toks : List String) (wd : String)
    (obs : Version → CandObs) : LoopState → List OutcomeRecord → LoopState
  | st, [] => st
  | st, soln :: rest => runLoop run toks wd obs (runLoopStep run toks wd obs st soln) rest

/-- Whether one candidate makes the fail flag go up: a solver failure
always does; with a validation command requested, so do a failed tree
write and a failed command. -/
def candFail (run : String) (obs : Version → CandObs) (s : OutcomeRecord) : Bool :=
  match s.res with
  | SolveRes.err _ => true
  | SolveRes.ok _ =>
    if run = "" then false
    else
      match (obs s.v).write with
      | WriteOutcome.fail _ => true
      | WriteOutcome.ok _ => cmdFailed (obs s.v).cmd

/-- Result of the run phase: final filesystem, the trace of on-disk
states after each vendor-path mutation (the states an abrupt termination
could leave behind), the fail flag, whether the run aborted while
backing up the vendor tree, and the events. -/
structure RunPhaseResult where
  fs : FS
  trace : List FS
  fail : Bool
  fatalBackup : Bool
  events : List RunEvent
deriving DecidableEq, Repr

/-- Embeds the post-sweep half of RunGTA (backup, outcome loop, deferred
restore).  When a validation command was requested and the vendor path
is occupied, it is renamed to the backup path (a rename failure — the
backup path being occupied — aborts the run).  The deferred restore
rename runs only when a backup was made; its error is discarded, so it
silently does nothing when the vendor path is still occupied. -/
def runPhase (wd run : String) (obs : Version → CandObs)
    (solns : List OutcomeRecord) (fs0 : FS) : RunPhaseResult :=
  let toks := tokenizeRun run
  if run ≠ "" ∧ fs0.vendor.isSome then
    if fs0.backup.isSome then
      ⟨fs0, [], false, true, []⟩
    else
      let fs1 : FS := ⟨none, fs0.vendor⟩
      let st := runLoop run toks wd obs ⟨fs1, [fs1], false, []⟩ solns
      if st.fs.vendor = none then
        let fs2 : FS := ⟨st.fs.backup, none⟩
        ⟨fs2, st.trace ++ [fs2], st.fail, false, st.events⟩
      else
        ⟨st.fs, st.trace, st.fail, false, st.events⟩
  else
    let st := runLoop run toks wd obs ⟨fs0, [], false, []⟩ solns
    ⟨st.fs, st.trace, st.fail, false, st.events⟩

/-- RunGTA returns a non-nil error (and main then exits with status 1)
exactly when the run aborted during backup or the fail flag is set. -/
def exitSignalsFailure (r : RunPhaseResult) : Bool :=
  r.fatalBackup || r.fail

/-- The ValidationResults of a run: candidate and command outcome of
every validation execution, in order. -/
def validationResultsOf (events : List RunEvent) : List (Version × CmdOutcome) :=
  events.filterMap (fun e =>
    match e with
    | RunEvent.cmdExec v _ _ _ o => some (v, o)
    | _ => none)

/-- The candidates whose tree materialization failed, in order. -/
def treeWriteFailsOf (events : List RunEvent) : List Version :=
  events.filterMap (fun e =>
    match e with
    | RunEvent.treeWriteFail v => some v
    | _ => none)

/-- Full record of a validation execution extracted from an event. -/
def cmdExecInfo (e : RunEvent) :
    Option (Version × String × List String × String × CmdOutcome) :=
  match e with
  | RunEvent.cmdExec v prog args cwd o => some (v, prog, args, cwd, o)
  | _ => none

/-! ### The composed run -/

/-- Result of the composed run: abort message of a fatal precondition
(no matching versions), the sweep outcomes, the constraint maps the
solver observed, and the run-phase result. -/
structure GtaResult where
  aborted : Option String
  outcomes : List OutcomeRecord
  observed : List ConstraintMap
  phase : RunPhaseResult
deriving DecidableEq, Repr

/-- Composes the parts of RunGTA the claims are about: filter the
catalog by the focal constraint (aborting on an empty result before any
filesystem access), sweep the filtered candidates against the solver,
then run the backup / validate / restore phase. -/
def gtaRun (wd run : String) (root : ProjectRoot)
    (bm sv : String → Version → Bool) (c : Constraint)
    (base : ConstraintMap) (vlist : List Version)
    (solve : ConstraintMap → Version → SolveRes)
    (obs : Version → CandObs) (fs0 : FS) : GtaResult :=
  match filterAndCheck (Constraint.matches bm sv c) vlist with
  | Except.error e => ⟨some e, [], [], ⟨fs0, [], false, false, []⟩⟩
  | Except.ok vl =>
    let fid := initialFocusIdent base root
    let sw := sweep solve root fid base vl
    let pr := runPhase wd run obs sw.2.1 fs0
    ⟨none, sw.2.1, sw.2.2, pr⟩

/-! ### The godep loader -/

/-- One entry of the legacy Godeps import list: an import path with its
pinned revision. -/
structure GodepDependency where
  importPath : String
  rev : String
deriving DecidableEq, Repr

/-- A glide manifest constraint entry as emitted by the loader; an empty
version string means no explicit version requirement. -/
structure CfgDependency where
  name : String
  version : String
deriving DecidableEq, Repr

/-- A glide lock entry pairing a name with a pinned revision. -/
structure CfgLock where
  name : String
  revision : String
deriving DecidableEq, Repr

/-- Embeds the accumulation loop of AsMetadataPair: normalize each entry
path (normalization itself lives in the external util package and
is passed as an oracle), skip identifiers already seen, and otherwise
append a version-free constraint and a revision-pinned lock entry. -/
def amdLoop (normalize : String → String) :
    List String → List CfgDependency → List CfgLock → List GodepDependency →
    List CfgDependency × List CfgLock
  | _, m, l, [] => (m, l)
  | seen, m, l, d :: rest =>
    let pkg := normalize d.importPath
    if pkg ∈ seen then amdLoop normalize seen m l rest
    else amdLoop normalize (pkg :: seen) (m ++ [⟨pkg, ""⟩]) (l ++ [⟨pkg, d.rev⟩]) rest

/-- Embeds AsMetadataPair of the vendored godep package, starting from
an empty seen set and empty accumulators. -/
def asMetadataPair (normalize : String → String) (deps : List GodepDependency) :
    List CfgDependency × List CfgLock :=
  amdLoop normalize [] [] [] deps

/-- Keeps, per normalized identifier, only the first list entry; spelled
out independently so the loader can be compared against it. -/
def keepFirstByKey (normalize : String → String) :
    List String → List GodepDependency → List GodepDependency
  | _, [] => []
  | seen, d :: rest =>
    let pkg := normalize d.importPath
    if pkg ∈ seen then keepFirstByKey normalize seen rest
    else d :: keepFirstByKey normalize (pkg :: seen) rest

/-! ### Definitions following the words of the spec, for comparison -/

/-- Follows the words of the spec, for comparison with tokenizeRun:
whitespace tokenization of the validation command line (fields separated
by any run of whitespace, with no empty tokens). -/
def specWhitespaceTokenize (s : String) : List String :=
  ((splitCharsWhen (fun c => c.isWhitespace) s.toList).filter (fun t => t ≠ [])).map
    (fun cs => ⟨cs⟩)

/-- Follows the words of the spec, for comparison with the computed fail
flag: Fail iff at least one SolveError exists, or validation was
requested and at least one ValidationResult is Fail. -/
def specVerdictFail (run : String) (solns : List OutcomeRecord)
    (r : RunPhaseResult) : Bool :=
  solns.any OutcomeRecord.isErr ||
    (!(run == "") && (validationResultsOf r.events).any (fun p => cmdFailed p.2))

/-! ### Supporting lemmas: association lists -/

theorem assocLookup_assocUpdate_self {K V : Type} [DecidableEq K]
    (l : List (K × V)) (k : K) (v : V) :
    assocLookup (assocUpdate l k v) k = some v := by
  induction l with
  | nil => simp [assocUpdate, assocLookup]
  | cons p rest ih =>
    by_cases h : p.1 = k
    · simp [assocUpdate, assocLookup, h]
    · simp [assocUpdate, assocLookup, h, ih]

theorem assocLookup_assocUpdate_ne {K V : Type} [DecidableEq K]
    (l : List (K × V)) (k r : K) (v : V) (h : k ≠ r) :
    assocLookup (assocUpdate l k v) r = assocLookup l r := by
  induction l with
  | nil => simp [assocUpdate, assocLookup, h]
  | cons p rest ih =>
    by_cases hp : p.1 = k
    · subst hp
      simp [assocUpdate, assocLookup, h]
    · simp [assocUpdate, assocLookup, hp, ih]

theorem assocUpdate_assocUpdate_same {K V : Type} [DecidableEq K]
    (l : List (K × V)) (k : K) (v1 v2 : V) :
    assocUpdate (assocUpdate l k v1) k v2 = assocUpdate l k v2 := by
  induction l with
  | nil => simp [assocUpdate]
  | cons p rest ih =>
    by_cases hp : p.1 = k
    · simp [assocUpdate, hp]
    · simp [assocUpdate, hp, ih]

theorem countKey_eq_zero_of_not_mem {K V : Type} [DecidableEq K]
    (l : List (K × V)) (k : K) (h : k ∉ l.map Prod.fst) :
    countKey l k = 0 := by
  induction l with
  | nil => simp [countKey]
  | cons p rest ih =>
    simp only [List.map_cons, List.mem_cons] at h
    push_neg at h
    have hp : ¬p.1 = k := fun hh => h.1 hh.symm
    simp [countKey, List.countP_cons, hp] at *
    exact ih h.2

theorem countKey_assocUpdate_self {K V : Type} [DecidableEq K]
    (l : List (K × V)) (k : K) (v : V) (hnd : (l.map Prod.fst).Nodup) :
    countKey (assocUpdate l k v) k = 1 := by
  induction l with
  | nil => simp [assocUpdate, countKey, List.countP_cons]
  | cons p rest ih =>
    simp only [List.map_cons, List.nodup_cons] at hnd
    by_cases hp : p.1 = k
    · subst hp
      have h0 : rest.countP (fun q => decide (q.1 = p.1)) = 0 :=
        countKey_eq_zero_of_not_mem rest p.1 hnd.1
      simp [assocUpdate, countKey, List.countP_cons, h0]
    · have h1 : countKey (assocUpdate rest k v) k = 1 := ih hnd.2
      simp only [countKey] at h1
      simp [assocUpdate, countKey, List.countP_cons, hp, h1]

theorem mem_keys_assocUpdate {K V : Type} [DecidableEq K]
    (l : List (K × V)) (k r : K) (v : V)
    (h : r ∈ (assocUpdate l k v).map Prod.fst) : r ∈ l.map Prod.fst ∨ r = k := by
  induction l with
  | nil =>
    simp [assocUpdate] at h
    exact Or.inr h
  | cons p rest ih =>
    by_cases hp : p.1 = k
    · simp only [assocUpdate, if_pos hp, List.map_cons] at h
      exact Or.inl (by simpa using h)
    · simp only [assocUpdate, if_neg hp, List.map_cons, List.mem_cons] at h
      rcases h with h | h
      · exact Or.inl (List.mem_cons.mpr (Or.inl h))
      · rcases ih h with h2 | h2
        · exact Or.inl (List.mem_cons.mpr (Or.inr h2))
        · exact Or.inr h2

theorem keys_assocUpdate_nodup {K V : Type} [DecidableEq K]
    (l : List (K × V)) (k : K) (v : V) (h : (l.map Prod.fst).Nodup) :
    ((assocUpdate l k v).map Prod.fst).Nodup := by
  induction l with
  | nil => simp [assocUpdate]
  | cons p rest ih =>
    simp only [List.map_cons, List.nodup_cons] at h
    by_cases hp : p.1 = k
    · simp only [assocUpdate, if_pos hp, List.map_cons, List.nodup_cons]
      exact ⟨h.1, h.2⟩
    · simp only [assocUpdate, if_neg hp, List.map_cons, List.nodup_cons]
      refine ⟨?_, ih h.2⟩
      intro hmem
      rcases mem_keys_assocUpdate rest k p.1 v hmem with h2 | h2
      · exact h.1 h2
      · exact hp h2

theorem foldl_update_keys_nodup (ds : List ProjectConstraint) :
    ∀ l : ConstraintMap, (l.map Prod.fst).Nodup →
    ((ds.foldl (fun acc d => assocUpdate acc d.ident.projectRoot d) l).map
      Prod.fst).Nodup := by
  induction ds with
  | nil =>
    intro l h
    exact h
  | cons d rest ih =>
    intro l h
    exact ih _ (keys_assocUpdate_nodup l d.ident.projectRoot d h)

/-- Every constraint map prepManifest builds has duplicate-free keys, so
the no-duplicate-keys hypothesis of the sweep theorems holds for every
baseline the program actually constructs. -/
theorem prepManifest_baseline_keys_nodup (mm : GpsManifest) :
    ((mm.constraints.foldl (fun acc d => assocUpdate acc d.ident.projectRoot d)
      []).map Prod.fst).Nodup :=
  foldl_update_keys_nodup mm.constraints [] (by simp)

/-! ### Supporting lemmas: the sweep -/

theorem sweep_outcomes (solve : ConstraintMap → Version → SolveRes)
    (root : ProjectRoot) (fid : ProjectIdentifier) (st : ConstraintMap)
    (vl : List Version) :
    (sweep solve root fid st vl).2.1 =
      vl.map (fun v => ⟨v, solve (assocUpdate st root ⟨fid, Constraint.ver v⟩) v⟩) := by
  induction vl generalizing st with
  | nil => rfl
  | cons v vs ih =>
    show (⟨v, solve (assocUpdate st root ⟨fid, Constraint.ver v⟩) v⟩ : OutcomeRecord) ::
        (sweep solve root fid (assocUpdate st root ⟨fid, Constraint.ver v⟩) vs).2.1 = _
    rw [ih, List.map_cons]
    congr 1
    apply List.map_congr_left
    intro w _
    rw [assocUpdate_assocUpdate_same]

theorem sweep_observed (solve : ConstraintMap → Version → SolveRes)
    (root : ProjectRoot) (fid : ProjectIdentifier) (st : ConstraintMap)
    (vl : List Version) :
    (sweep solve root fid st vl).2.2 =
      vl.map (fun v => assocUpdate st root ⟨fid, Constraint.ver v⟩) := by
  induction vl generalizing st with
  | nil => rfl
  | cons v vs ih =>
    show assocUpdate st root ⟨fid, Constraint.ver v⟩ ::
        (sweep solve root fid (assocUpdate st root ⟨fid, Constraint.ver v⟩) vs).2.2 = _
    rw [ih, List.map_cons]
    congr 1
    apply List.map_congr_left
    intro w _
    rw [assocUpdate_assocUpdate_same]

/-! ### Supporting lemmas: filtering -/

theorem filterVersions_foldl_acc (p : Version → Bool) (vlist : List Version)
    (acc : List Version) :
    vlist.foldl (fun vl v => if p v then vl ++ [v] else vl) acc =
      acc ++ vlist.filter p := by
  induction vlist generalizing acc with
  | nil => simp
  | cons v vs ih =>
    by_cases hv : p v
    · simp [hv, ih, List.filter_cons]
    · simp [hv, ih, List.filter_cons]

theorem filterVersions_eq_filter (p : Version → Bool) (vlist : List Version) :
    filterVersions p vlist = vlist.filter p := by
  simpa using filterVersions_foldl_acc p vlist []

theorem filter_beq_of_not_mem (t : Version) (vlist : List Version)
    (h : t ∉ vlist) :
    vlist.filter (fun v => v == t) = [] := by
  induction vlist with
  | nil => rfl
  | cons x xs ih =>
    simp only [List.mem_cons] at h
    push_neg at h
    have hx : ¬(x == t) = true := by
      simp only [beq_iff_eq]
      exact fun hh => h.1 hh.symm
    simp [List.filter_cons, hx, ih h.2]

theorem filter_beq_of_nodup (t : Version) (vlist : List Version)
    (hnd : vlist.Nodup) (hmem : t ∈ vlist) :
    vlist.filter (fun v => v == t) = [t] := by
  induction vlist with
  | nil => cases hmem
  | cons x xs ih =>
    simp only [List.nodup_cons] at hnd
    rcases List.mem_cons.mp hmem with hx | hxs
    · subst hx
      have h0 : List.filter (fun v => v == t) xs = [] :=
        filter_beq_of_not_mem t xs hnd.1
      simp [List.filter_cons, h0]
    · have hx : ¬(x == t) = true := by
        simp only [beq_iff_eq]
        intro hh
        subst hh
        exact hnd.1 hxs
      simp [List.filter_cons, hx, ih hnd.2 hxs]

/-! ### Supporting lemmas: prepManifest -/

theorem insertAll_some (ds : List ProjectConstraint) (l : ConstraintMap) :
    insertAll ⟨some l⟩ ds =
      some ⟨some (ds.foldl (fun acc d => assocUpdate acc d.ident.projectRoot d) l)⟩ := by
  induction ds generalizing l with
  | nil => rfl
  | cons d rest ih =>
    simp only [insertAll, GoMap.insert, List.foldl_cons]
    exact ih (assocUpdate l d.ident.projectRoot d)

theorem prepManifest_some (mm : GpsManifest) :
    prepManifest (some mm) =
      some ⟨⟨some (mm.constraints.foldl
              (fun acc d => assocUpdate acc d.ident.projectRoot d) [])⟩,
            ⟨some (mm.testConstraints.foldl
              (fun acc d => assocUpdate acc d.ident.projectRoot d) [])⟩⟩ := by
  simp [prepManifest, GoMap.empty, insertAll_some]

theorem assocLookup_foldl_update (ds : List ProjectConstraint)
    (l : ConstraintMap) (k : ProjectRoot) :
    assocLookup (ds.foldl (fun acc d => assocUpdate acc d.ident.projectRoot d) l) k =
      match ds.reverse.find? (fun d => d.ident.projectRoot == k) with
      | some d => some d
      | none => assocLookup l k := by
  induction ds using List.reverseRecOn generalizing l with
  | nil => simp
  | append_singleton init d ih =>
    rw [List.foldl_append]
    simp only [List.foldl_cons, List.foldl_nil, List.reverse_append, List.reverse_cons,
      List.reverse_nil, List.nil_append, List.cons_append, List.find?_cons]
    by_cases hd : d.ident.projectRoot = k
    · have : (d.ident.projectRoot == k) = true := beq_iff_eq.mpr hd
      rw [this]
      subst hd
      exact assocLookup_assocUpdate_self _ _ _
    · have : (d.ident.projectRoot == k) = false := by
        simp [hd]
      rw [this]
      rw [assocLookup_assocUpdate_ne _ _ _ _ hd]
      exact ih l

/-! ### Supporting lemmas: the run phase -/

theorem runLoopStep_fail (run : String) (toks : List String) (wd : String)
    (obs : Version → CandObs) (st : LoopState) (s : OutcomeRecord) :
    (runLoopStep run toks wd obs st s).fail = (st.fail || candFail run obs s) := by
  rcases s with ⟨v, res⟩
  cases res with
  | err e => simp [runLoopStep, candFail]
  | ok sol =>
    by_cases hr : run = ""
    · simp [runLoopStep, candFail, hr]
    · cases hw : (obs v).write with
      | ok tree => simp [runLoopStep, candFail, hr, hw]
      | fail leftover => simp [runLoopStep, candFail, hr, hw]

theorem runLoop_fail (run : String) (toks : List String) (wd : String)
    (obs : Version → CandObs) (solns : List OutcomeRecord) (st : LoopState) :
    (runLoop run toks wd obs st solns).fail = (st.fail || solns.any (candFail run obs)) := by
  induction solns generalizing st with
  | nil => simp [runLoop]
  | cons s rest ih =>
    show (runLoop run toks wd obs (runLoopStep run toks wd obs st s) rest).fail = _
    rw [ih, runLoopStep_fail, List.any_cons, Bool.or_assoc]

theorem runLoop_cmdExecs (run : String) (toks : List String) (wd : String)
    (obs : Version → CandObs) (hrun : ¬run = "") (solns : List OutcomeRecord)
    (st : LoopState) :
    (runLoop run toks wd obs st solns).events.filterMap cmdExecInfo =
      st.events.filterMap cmdExecInfo ++
        (solns.filter (fun s => !s.isErr && (obs s.v).write.isOk)).map
          (fun s => (s.v, toks.headD "", toks.tail, wd, (obs s.v).cmd)) := by
  induction solns generalizing st with
  | nil => simp [runLoop]
  | cons s rest ih =>
    show (runLoop run toks wd obs (runLoopStep run toks wd obs st s) rest).events.filterMap
        cmdExecInfo = _
    rw [ih]
    rcases s with ⟨v, res⟩
    cases res with
    | err e =>
      simp [runLoopStep, OutcomeRecord.isErr, List.filter_cons]
    | ok sol =>
      cases hw : (obs v).write with
      | ok tree =>
        simp [runLoopStep, OutcomeRecord.isErr, List.filter_cons, hrun, hw,
          WriteOutcome.isOk, List.filterMap_append, cmdExecInfo]
      | fail leftover =>
        simp [runLoopStep, OutcomeRecord.isErr, List.filter_cons, hrun, hw,
          WriteOutcome.isOk, List.filterMap_append, cmdExecInfo]

theorem runLoop_validationResults (run : String) (toks : List String) (wd : String)
    (obs : Version → CandObs) (hrun : ¬run = "") (solns : List OutcomeRecord)
    (st : LoopState) :
    validationResultsOf (runLoop run toks wd obs st solns).events =
      validationResultsOf st.events ++
        (solns.filter (fun s => !s.isErr && (obs s.v).write.isOk)).map
          (fun s => (s.v, (obs s.v).cmd)) := by
  induction solns generalizing st with
  | nil => simp [runLoop]
  | cons s rest ih =>
    show validationResultsOf (runLoop run toks wd obs
        (runLoopStep run toks wd obs st s) rest).events = _
    rw [ih]
    rcases s with ⟨v, res⟩
    cases res with
    | err e =>
      simp [runLoopStep, OutcomeRecord.isErr, List.filter_cons]
    | ok sol =>
      cases hw : (obs v).write with
      | ok tree =>
        simp [runLoopStep, OutcomeRecord.isErr, List.filter_cons, hrun, hw,
          WriteOutcome.isOk, validationResultsOf, List.filterMap_append]
      | fail leftover =>
        simp [runLoopStep, OutcomeRecord.isErr, List.filter_cons, hrun, hw,
          WriteOutcome.isOk, validationResultsOf, List.filterMap_append]

theorem runLoop_run_empty (toks : List String) (wd : String)
    (obs : Version → CandObs) (solns : List OutcomeRecord) (st : LoopState) :
    runLoop "" toks wd obs st solns =
      { st with fail := st.fail || solns.any OutcomeRecord.isErr } := by
  induction solns generalizing st with
  | nil => simp [runLoop]
  | cons s rest ih =>
    show runLoop "" toks wd obs (runLoopStep "" toks wd obs st s) rest = _
    rw [ih]
    rcases s with ⟨v, res⟩
    cases res with
    | err e => simp [runLoopStep, OutcomeRecord.isErr]
    | ok sol => simp [runLoopStep, OutcomeRecord.isErr]

theorem runLoop_fs_restore (run : String) (toks : List String) (wd : String)
    (obs : Version → CandObs)
    (hres : ∀ v l, (obs v).write = WriteOutcome.fail l → l = none)
    (solns : List OutcomeRecord) (st : LoopState) (hv : st.fs.vendor = none) :
    (runLoop run toks wd obs st solns).fs = FS.mk none st.fs.backup := by
  induction solns generalizing st with
  | nil =>
    rcases st with ⟨⟨sv, sb⟩, tr, fl, evs⟩
    simp at hv
    subst hv
    rfl
  | cons s rest ih =>
    show (runLoop run toks wd obs (runLoopStep run toks wd obs st s) rest).fs = _
    rcases s with ⟨v, res⟩
    cases res with
    | err e =>
      exact ih { st with fail := true } hv
    | ok sol =>
      by_cases hr : run = ""
      · have hstep : runLoopStep run toks wd obs st ⟨v, SolveRes.ok sol⟩ = st := by
          simp [runLoopStep, hr]
        rw [hstep]
        exact ih st hv
      · cases hw : (obs v).write with
        | ok tree =>
          have hstep : runLoopStep run toks wd obs st ⟨v, SolveRes.ok sol⟩ =
              { fs := ⟨none, st.fs.backup⟩,
                trace := st.trace ++ [⟨some tree, st.fs.backup⟩, ⟨none, st.fs.backup⟩],
                fail := st.fail || cmdFailed (obs v).cmd,
                events := st.events ++
                  [RunEvent.cmdExec v (toks.headD "") toks.tail wd (obs v).cmd] } := by
            simp [runLoopStep, hr, hw]
          rw [hstep]
          exact ih _ rfl
        | fail leftover =>
          have hl : leftover = none := hres v leftover hw
          subst hl
          have hstep : runLoopStep run toks wd obs st ⟨v, SolveRes.ok sol⟩ =
              { fs := ⟨none, st.fs.backup⟩,
                trace := st.trace ++ [⟨none, st.fs.backup⟩], fail := true,
                events := st.events ++ [RunEvent.treeWriteFail v] } := by
            simp [runLoopStep, hr, hw]
          rw [hstep]
          exact ih _ rfl

theorem runPhase_fatal (wd run : String) (obs : Version → CandObs)
    (solns : List OutcomeRecord) (fs0 : FS) (hb : fs0.backup = none) :
    (runPhase wd run obs solns fs0).fatalBackup = false := by
  simp only [runPhase]
  split
  · rw [hb]
    simp only [Option.isSome_none, Bool.false_eq_true, if_false]
    split <;> rfl
  · rfl

theorem runPhase_fail (wd run : String) (obs : Version → CandObs)
    (solns : List OutcomeRecord) (fs0 : FS) (hb : fs0.backup = none) :
    (runPhase wd run obs solns fs0).fail = solns.any (candFail run obs) := by
  simp only [runPhase]
  split
  · rw [hb]
    simp only [Option.isSome_none, Bool.false_eq_true, if_false]
    split
    · simp [runLoop_fail]
    · simp [runLoop_fail]
  · simp [runLoop_fail]

theorem runPhase_cmdExecs (wd run : String) (obs : Version → CandObs)
    (solns : List OutcomeRecord) (fs0 : FS) (hrun : ¬run = "")
    (hb : fs0.backup = none) :
    (runPhase wd run obs solns fs0).events.filterMap cmdExecInfo =
      (solns.filter (fun s => !s.isErr && (obs s.v).write.isOk)).map
        (fun s => (s.v, (tokenizeRun run).headD "", (tokenizeRun run).tail, wd,
          (obs s.v).cmd)) := by
  simp only [runPhase]
  split
  · rw [hb]
    simp only [Option.isSome_none, Bool.false_eq_true, if_false]
    split
    · simp [runLoop_cmdExecs run (tokenizeRun run) wd obs hrun]
    · simp [runLoop_cmdExecs run (tokenizeRun run) wd obs hrun]
  · simp [runLoop_cmdExecs run (tokenizeRun run) wd obs hrun]

theorem runPhase_validationResults (wd run : String) (obs : Version → CandObs)
    (solns : List OutcomeRecord) (fs0 : FS) (hrun : ¬run = "")
    (hb : fs0.backup = none) :
    validationResultsOf (runPhase wd run obs solns fs0).events =
      (solns.filter (fun s => !s.isErr && (obs s.v).write.isOk)).map
        (fun s => (s.v, (obs s.v).cmd)) := by
  simp only [runPhase]
  split
  · rw [hb]
    simp only [Option.isSome_none, Bool.false_eq_true, if_false]
    split
    · rw [runLoop_validationResults run (tokenizeRun run) wd obs hrun]
      rfl
    · rw [runLoop_validationResults run (tokenizeRun run) wd obs hrun]
      rfl
  · rw [runLoop_validationResults run (tokenizeRun run) wd obs hrun]
    rfl

theorem candFail_eq (run : String) (obs : Version → CandObs) (s : OutcomeRecord) :
    candFail run obs s =
      (s.isErr || ((!(run == "")) &&
        (!s.isErr && (!(obs s.v).write.isOk || cmdFailed (obs s.v).cmd)))) := by
  rcases s with ⟨v, res⟩
  cases res with
  | err e => simp [candFail, OutcomeRecord.isErr]
  | ok sol =>
    by_cases hr : run = ""
    · simp [candFail, OutcomeRecord.isErr, hr]
    · cases hw : (obs v).write with
      | ok tree => simp [candFail, OutcomeRecord.isErr, hr, hw, WriteOutcome.isOk]
      | fail leftover => simp [candFail, OutcomeRecord.isErr, hr, hw, WriteOutcome.isOk]

theorem bool_or_shuffle (a b x e f : Bool) :
    ((a || (b && x)) || (e || (b && f))) = ((a || e) || (b && (x || f))) := by
  cases a <;> cases b <;> cases x <;> cases e <;> cases f <;> rfl

theorem any_candFail_eq (run : String) (obs : Version → CandObs)
    (solns : List OutcomeRecord) :
    solns.any (candFail run obs) =
      (solns.any OutcomeRecord.isErr || ((!(run == "")) &&
        solns.any (fun s => !s.isErr && (!(obs s.v).write.isOk || cmdFailed (obs s.v).cmd)))) := by
  induction solns with
  | nil => simp
  | cons s rest ih =>
    simp only [List.any_cons, ih, candFail_eq]
    rw [bool_or_shuffle]

/-! ### Supporting lemmas: miscellaneous list facts -/

theorem any_map_eq {α β : Type} (f : α → β) (p : β → Bool) (l : List α) :
    (l.map f).any p = l.any (fun a => p (f a)) := by
  induction l with
  | nil => rfl
  | cons a rest ih => simp [List.any_cons, ih]

theorem any_filter_eq {α : Type} (q p : α → Bool) (l : List α) :
    (l.filter q).any p = l.any (fun a => q a && p a) := by
  induction l with
  | nil => rfl
  | cons a rest ih =>
    by_cases hq : q a
    · simp [List.filter_cons, hq, ih]
    · simp [List.filter_cons, hq, ih]

/-! ### Supporting lemmas: the godep loader -/

theorem amdLoop_eq (f : String → String) (deps : List GodepDependency) :
    ∀ (seen : List String) (m : List CfgDependency) (l : List CfgLock),
    amdLoop f seen m l deps =
      (m ++ (keepFirstByKey f seen deps).map (fun d => ⟨f d.importPath, ""⟩),
       l ++ (keepFirstByKey f seen deps).map (fun d => ⟨f d.importPath, d.rev⟩)) := by
  induction deps with
  | nil =>
    intro seen m l
    simp [amdLoop, keepFirstByKey]
  | cons d rest ih =>
    intro seen m l
    by_cases hd : f d.importPath ∈ seen
    · simp [amdLoop, keepFirstByKey, hd, ih]
    · simp [amdLoop, keepFirstByKey, hd, ih]

theorem keepFirst_find (f : String → String) (deps : List GodepDependency) :
    ∀ (seen : List String) (name : String), name ∉ seen →
    (keepFirstByKey f seen deps).find? (fun d => f d.importPath == name) =
      deps.find? (fun d => f d.importPath == name) := by
  induction deps with
  | nil =>
    intro seen name _
    rfl
  | cons d rest ih =>
    intro seen name hname
    by_cases hd : f d.importPath ∈ seen
    · have hne : (f d.importPath == name) = false := by
        simp only [beq_eq_false_iff_ne, ne_eq]
        intro hh
        exact hname (hh ▸ hd)
      simp [keepFirstByKey, hd, List.find?_cons, hne, ih seen name hname]
    · by_cases heq : f d.importPath = name
      · have hq : (f d.importPath == name) = true := beq_iff_eq.mpr heq
        simp [keepFirstByKey, hd, List.find?_cons, hq]
      · have hne : (f d.importPath == name) = false := by
          simp [heq]
        have hnotin : name ∉ f d.importPath :: seen := by
          intro hh
          rcases List.mem_cons.mp hh with hh1 | hh2
          · exact heq hh1.symm
          · exact hname hh2
        simp [keepFirstByKey, hd, List.find?_cons, hne, ih _ name hnotin]

theorem keepFirst_keys_nodup (f : String → String) (deps : List GodepDependency) :
    ∀ seen : List String,
    ((keepFirstByKey f seen deps).map (fun d => f d.importPath)).Nodup ∧
    ∀ d ∈ keepFirstByKey f seen deps, f d.importPath ∉ seen := by
  induction deps with
  | nil =>
    intro seen
    simp [keepFirstByKey]
  | cons d rest ih =>
    intro seen
    by_cases hd : f d.importPath ∈ seen
    · simpa [keepFirstByKey, hd] using ih seen
    · have hk : keepFirstByKey f seen (d :: rest) =
          d :: keepFirstByKey f (f d.importPath :: seen) rest := by
        simp [keepFirstByKey, hd]
      have h2 := ih (f d.importPath :: seen)
      rw [hk]
      refine ⟨?_, ?_⟩
      · simp only [List.map_cons, List.nodup_cons]
        refine ⟨?_, h2.1⟩
        intro hmem
        rcases List.mem_map.mp hmem with ⟨d2, hd2, hkey⟩
        exact (h2.2 d2 hd2) (hkey ▸ List.mem_cons_self _ _)
      · intro d2 hd2
        rcases List.mem_cons.mp hd2 with hh | hh
        · subst hh
          exact hd
        · intro hmem
          exact (h2.2 d2 hh) (List.mem_cons_of_mem _ hmem)

/-! ### Claim theorems -/

/-- C3: the sweep produces exactly one OutcomeRecord per filtered
candidate, in exactly the input order, and a per-candidate solver
failure is recorded as that candidate's outcome without aborting the
sweep — the solver oracle is arbitrary (it may fail on any subset of
candidates) and every index still carries its record. -/
theorem sweep_outcome_per_candidate (solve : ConstraintMap → Version → SolveRes)
    (root : ProjectRoot) (fid : ProjectIdentifier) (st : ConstraintMap)
    (vl : List Version) :
    ((sweep solve root fid st vl).2.1).length = vl.length ∧
    ∀ i, (h : i < vl.length) →
      ((sweep solve root fid st vl).2.1)[i]? =
        some ⟨vl[i], solve (assocUpdate st root ⟨fid, Constraint.ver vl[i]⟩) vl[i]⟩ := by
  constructor
  · rw [sweep_outcomes]
    exact List.length_map _ _
  · intro i h
    rw [sweep_outcomes, List.getElem?_map, List.getElem?_eq_getElem h]
    rfl

/-- Witness for C3 at a concrete failing solver: the second candidate of
a two-candidate sweep still gets its own failure record. -/
theorem sweep_outcome_per_candidate_witness :
    ((sweep (fun _ _ => SolveRes.err "boom") "r" ⟨"r", ""⟩ [] ["v1", "v2"]).2.1)[1]? =
      some ⟨"v2", SolveRes.err "boom"⟩ := by
  have h := (sweep_outcome_per_candidate (fun _ _ => SolveRes.err "boom") "r" ⟨"r", ""⟩
    [] ["v1", "v2"]).2 1 (by decide)
  exact h.trans (by decide)

/-- C4: in every constraint map the solver observes during a sweep, the
entry of every non-focal identifier equals the baseline entry, and
exactly one entry for the focal root is present. -/
theorem sweep_preserves_nonfocal (solve : ConstraintMap → Version → SolveRes)
    (root : ProjectRoot) (fid : ProjectIdentifier) (st : ConstraintMap)
    (vl : List Version) (hnd : (st.map Prod.fst).Nodup) :
    ∀ m ∈ (sweep solve root fid st vl).2.2,
      (∀ r, r ≠ root → assocLookup m r = assocLookup st r) ∧ countKey m root = 1 := by
  rw [sweep_observed]
  intro m hm
  rcases List.mem_map.mp hm with ⟨v, hv, rfl⟩
  refine ⟨?_, countKey_assocUpdate_self st root _ hnd⟩
  intro r hr
  exact assocLookup_assocUpdate_ne st root r _ (Ne.symm hr)

/-- Witness for C4 at a concrete one-candidate sweep over a baseline
with one non-focal entry. -/
theorem sweep_preserves_nonfocal_witness :
    (assocLookup (assocUpdate [("b", (⟨⟨"b", ""⟩, Constraint.any⟩ : ProjectConstraint))]
        "a" ⟨⟨"a", ""⟩, Constraint.ver "v1"⟩) "b" =
      assocLookup [("b", (⟨⟨"b", ""⟩, Constraint.any⟩ : ProjectConstraint))] "b") ∧
    countKey (assocUpdate [("b", (⟨⟨"b", ""⟩, Constraint.any⟩ : ProjectConstraint))]
        "a" ⟨⟨"a", ""⟩, Constraint.ver "v1"⟩) "a" = 1 := by
  have h := sweep_preserves_nonfocal (fun _ _ => SolveRes.err "x") "a" ⟨"a", ""⟩
    [("b", ⟨⟨"b", ""⟩, Constraint.any⟩)] ["v1"] (by decide)
  have hm := h (assocUpdate [("b", ⟨⟨"b", ""⟩, Constraint.any⟩)] "a"
    ⟨⟨"a", ""⟩, Constraint.ver "v1"⟩) (by decide)
  exact ⟨hm.1 "b" (by decide), hm.2⟩

/-- C5 counterexample: with two manifest entries for the same
identifier, prepManifest keeps the LAST one, not the first as claimed —
the loop writes each entry into the map, overwriting earlier ones. -/
theorem prep_dedup_counterexample :
    (prepManifest (some ⟨[⟨⟨"A", ""⟩, Constraint.ver "1"⟩,
        ⟨⟨"A", ""⟩, Constraint.ver "2"⟩], []⟩)).map
      (fun rm => rm.c.find "A") = some (some ⟨⟨"A", ""⟩, Constraint.ver "2"⟩) ∧
    (⟨⟨"A", ""⟩, Constraint.ver "2"⟩ : ProjectConstraint) ≠
      ⟨⟨"A", ""⟩, Constraint.ver "1"⟩ := by
  decide

/-- Helper: a lookup in a map built by the prepManifest fold returns the
last occurrence for the key. -/
theorem goMapFind_fold (ds : List ProjectConstraint) (k : ProjectRoot) :
    GoMap.find ⟨some (ds.foldl (fun acc d => assocUpdate acc d.ident.projectRoot d) [])⟩ k =
      ds.reverse.find? (fun d => d.ident.projectRoot == k) := by
  show assocLookup _ k = _
  rw [assocLookup_foldl_update]
  cases hf : ds.reverse.find? (fun d => d.ident.projectRoot == k) with
  | none => rfl
  | some d => rfl

/-- C5 (amended): for each identifier, the entry kept by prepManifest in
either constraint map is the LAST occurrence in the input slice; every
earlier duplicate is overwritten wholesale, with no merging. -/
theorem prep_dedup_last_wins (ds tds : List ProjectConstraint) (k : ProjectRoot) :
    (prepManifest (some ⟨ds, tds⟩)).map (fun rm => rm.c.find k) =
      some (ds.reverse.find? (fun d => d.ident.projectRoot == k)) ∧
    (prepManifest (some ⟨ds, tds⟩)).map (fun rm => rm.tc.find k) =
      some (tds.reverse.find? (fun d => d.ident.projectRoot == k)) := by
  rw [prepManifest_some]
  constructor
  · simp [goMapFind_fold]
  · simp [goMapFind_fold]

/-- C6: exact-version filtering returns exactly the singleton of the
requested version when it is in the (duplicate-free) catalog and the
NoMatchingVersions error when it is not; filtering by any constraint
preserves catalog order; and an empty filtered result aborts the
composed run before any solver call or filesystem access. -/
theorem exact_version_filtering (bm sv : String → Version → Bool) (t : Version)
    (vlist : List Version) :
    (vlist.Nodup → t ∈ vlist →
      filterAndCheck (Constraint.matches bm sv (Constraint.ver t)) vlist =
        Except.ok [t]) ∧
    (t ∉ vlist →
      filterAndCheck (Constraint.matches bm sv (Constraint.ver t)) vlist =
        Except.error "NoMatchingVersions") ∧
    (∀ c : Constraint, (filterVersions (Constraint.matches bm sv c) vlist).Sublist vlist) ∧
    (∀ (wd run : String) (root : ProjectRoot) (base : ConstraintMap)
      (solve : ConstraintMap → Version → SolveRes) (obs : Version → CandObs)
      (fs0 : FS) (c : Constraint),
      filterVersions (Constraint.matches bm sv c) vlist = [] →
      gtaRun wd run root bm sv c base vlist solve obs fs0 =
        ⟨some "NoMatchingVersions", [], [], ⟨fs0, [], false, false, []⟩⟩) := by
  refine ⟨?_, ?_, ?_, ?_⟩
  · intro hnd hmem
    have hp : Constraint.matches bm sv (Constraint.ver t) = (fun v => v == t) := rfl
    simp only [filterAndCheck, filterVersions_eq_filter, hp,
      filter_beq_of_nodup t vlist hnd hmem]
    rfl
  · intro hnotmem
    have hp : Constraint.matches bm sv (Constraint.ver t) = (fun v => v == t) := rfl
    simp only [filterAndCheck, filterVersions_eq_filter, hp,
      filter_beq_of_not_mem t vlist hnotmem]
    rfl
  · intro c
    rw [filterVersions_eq_filter]
    exact List.filter_sublist _
  · intro wd run root base solve obs fs0 c hfe
    simp [gtaRun, filterAndCheck, hfe]

/-- Witness for C6: requesting exact version v2 from catalog [v1, v2]
filters to exactly [v2]. -/
theorem exact_version_filtering_witness :
    filterAndCheck (Constraint.matches (fun _ _ => false) (fun _ _ => false)
      (Constraint.ver "v2")) ["v1", "v2"] = Except.ok ["v2"] :=
  (exact_version_filtering (fun _ _ => false) (fun _ _ => false) "v2" ["v1", "v2"]).1
    (by decide) (by decide)

/-- C10: with a nil manifest, prepManifest returns (without failing) a
record whose two maps are empty but non-nil, so later reads are none and
later writes of the focal entry succeed rather than panic. -/
theorem prep_nil_manifest_safe :
    prepManifest none = some ⟨GoMap.empty, GoMap.empty⟩ ∧
    (GoMap.empty : GoMap ProjectRoot ProjectConstraint).entries = some [] ∧
    (∀ k : ProjectRoot,
      GoMap.find (GoMap.empty : GoMap ProjectRoot ProjectConstraint) k = none) ∧
    (∀ (k : ProjectRoot) (pc : ProjectConstraint),
      (GoMap.insert (GoMap.empty : GoMap ProjectRoot ProjectConstraint) k pc).isSome =
        true) :=
  ⟨rfl, rfl, fun _ => rfl, fun _ _ => rfl⟩

/-- C9: with no validation command requested, the run phase performs no
filesystem operation on the vendor path at all: the final filesystem
equals the initial one, the mutation trace is empty, and no tree write
or command execution happens. -/
theorem no_validation_no_fs_ops (wd : String) (obs : Version → CandObs)
    (solns : List OutcomeRecord) (fs0 : FS) :
    runPhase wd "" obs solns fs0 =
      ⟨fs0, [], solns.any OutcomeRecord.isErr, false, []⟩ := by
  simp only [runPhase]
  rw [if_neg (by simp : ¬("" ≠ "" ∧ fs0.vendor.isSome = true))]
  rw [runLoop_run_empty]
  simp

/-- C2 counterexample: a run where the only candidate solves fine but
its tree materialization fails has verdict Fail, while no SolveError
exists and no ValidationResult exists at all — the claimed iff is false
at this input. -/
theorem verdict_claim_counterexample :
    (runPhase "w" "go test" (fun _ => ⟨WriteOutcome.fail none, CmdOutcome.exited 0 ""⟩)
      [⟨"v1", SolveRes.ok ⟨[]⟩⟩] ⟨none, none⟩).fail = true ∧
    specVerdictFail "go test" [⟨"v1", SolveRes.ok ⟨[]⟩⟩]
      (runPhase "w" "go test" (fun _ => ⟨WriteOutcome.fail none, CmdOutcome.exited 0 ""⟩)
        [⟨"v1", SolveRes.ok ⟨[]⟩⟩] ⟨none, none⟩) = false := by
  decide

/-- C2 (amended): absent an abort while backing up the vendor tree, the
verdict is Fail iff at least one candidate produced a SolveError, or
validation was requested and at least one solved candidate had a failed
tree materialization or a failing validation outcome; the process exit
signals failure exactly when the verdict is Fail; and the failing
ValidationResults are exactly the solved, materialized candidates whose
command failed. -/
theorem verdict_fail_characterization (wd run : String) (obs : Version → CandObs)
    (solns : List OutcomeRecord) (fs0 : FS) (hb : fs0.backup = none) :
    (runPhase wd run obs solns fs0).fatalBackup = false ∧
    (runPhase wd run obs solns fs0).fail =
      (solns.any OutcomeRecord.isErr || ((!(run == "")) &&
        solns.any (fun s => !s.isErr &&
          (!(obs s.v).write.isOk || cmdFailed (obs s.v).cmd)))) ∧
    exitSignalsFailure (runPhase wd run obs solns fs0) =
      (runPhase wd run obs solns fs0).fail ∧
    (¬run = "" →
      (validationResultsOf (runPhase wd run obs solns fs0).events).any
          (fun p => cmdFailed p.2) =
        solns.any (fun s => (!s.isErr && (obs s.v).write.isOk) &&
          cmdFailed (obs s.v).cmd)) := by
  refine ⟨runPhase_fatal wd run obs solns fs0 hb, ?_, ?_, ?_⟩
  · rw [runPhase_fail wd run obs solns fs0 hb, any_candFail_eq]
  · simp [exitSignalsFailure, runPhase_fatal wd run obs solns fs0 hb]
  · intro hrun
    rw [runPhase_validationResults wd run obs solns fs0 hrun hb, any_map_eq,
      any_filter_eq]

/-- Witness for C2 at a concrete input: one solved candidate whose
validation command exits 1 makes the verdict Fail. -/
theorem verdict_fail_characterization_witness :
    (runPhase "w" "go test" (fun _ => ⟨WriteOutcome.ok "t", CmdOutcome.exited 1 "bad"⟩)
      [⟨"v1", SolveRes.ok ⟨[]⟩⟩] ⟨none, none⟩).fail = true := by
  have h := verdict_fail_characterization "w" "go test"
    (fun _ => ⟨WriteOutcome.ok "t", CmdOutcome.exited 1 "bad"⟩)
    [⟨"v1", SolveRes.ok ⟨[]⟩⟩] ⟨none, none⟩ rfl
  rw [h.2.1]
  decide

/-- C7 counterexample: the program splits the command line at single
space characters, not on whitespace — on "go  test" (two spaces) the
program's tokens contain an empty token while whitespace tokenization
does not. -/
theorem tokenize_claim_counterexample :
    tokenizeRun "go  test" ≠ specWhitespaceTokenize "go  test" := by
  decide

/-- C7 (amended): the validation command is split at single space
characters (consecutive spaces yield empty tokens, other whitespace does
not separate), with no shell quoting; it is executed exactly for the
candidates whose solve and tree materialization succeeded, with the
first token as program, the remaining tokens as arguments, and the
process working directory (the project root) inherited; and a validation
outcome is a pass exactly when the command exited with status 0. -/
theorem validation_runner_behavior (wd run : String) (obs : Version → CandObs)
    (solns : List OutcomeRecord) (fs0 : FS) (hrun : ¬run = "")
    (hb : fs0.backup = none) :
    (runPhase wd run obs solns fs0).events.filterMap cmdExecInfo =
      (solns.filter (fun s => !s.isErr && (obs s.v).write.isOk)).map
        (fun s => (s.v, (tokenizeRun run).headD "", (tokenizeRun run).tail, wd,
          (obs s.v).cmd)) ∧
    (∀ v o, (v, o) ∈ validationResultsOf (runPhase wd run obs solns fs0).events →
      (cmdFailed o = false ↔ ∃ out, o = CmdOutcome.exited 0 out)) := by
  refine ⟨runPhase_cmdExecs wd run obs solns fs0 hrun hb, ?_⟩
  intro v o _
  cases o with
  | spawnErr msg => simp [cmdFailed]
  | exited code out =>
    constructor
    · intro hc
      have hcode : code = 0 := by
        simpa [cmdFailed] using hc
      exact ⟨out, by rw [hcode]⟩
    · rintro ⟨out2, ho⟩
      injection ho with h1 h2
      subst h1
      simp [cmdFailed]

/-- Witness for C7 at a concrete run: the command "go test" is executed
once for the single solved and materialized candidate, as program "go"
with argument list ["test"], in the working directory, exiting 0. -/
theorem validation_runner_behavior_witness :
    (runPhase "w" "go test" (fun _ => ⟨WriteOutcome.ok "t", CmdOutcome.exited 0 "out"⟩)
      [⟨"v1", SolveRes.ok ⟨[]⟩⟩] ⟨none, none⟩).events.filterMap cmdExecInfo =
      [("v1", "go", ["test"], "w", CmdOutcome.exited 0 "out")] := by
  have h := (validation_runner_behavior "w" "go test"
    (fun _ => ⟨WriteOutcome.ok "t", CmdOutcome.exited 0 "out"⟩)
    [⟨"v1", SolveRes.ok ⟨[]⟩⟩] ⟨none, none⟩ (by decide) rfl).1
  exact h.trans (by decide)

/-- C1 counterexample: during a run with a pre-existing vendor tree and
a validation command, the disk passes through a state in which the
vendor path is absent and the backup path holds the original tree; a run
ending by abrupt termination at that point leaves exactly this state, so
the claim's restoration guarantee is false for such an ending (nothing
in the program restores the backup on a later start). -/
theorem vendor_restore_claim_counterexample :
    FS.mk none (some "orig") ∈
      (gtaRun "w" "t" "r" (fun _ _ => true) (fun _ _ => true) Constraint.any [] ["v1"]
        (fun _ _ => SolveRes.ok ⟨[]⟩)
        (fun _ => ⟨WriteOutcome.ok "tree", CmdOutcome.exited 0 ""⟩)
        ⟨some "orig", none⟩).phase.trace ∧
    ¬((FS.mk none (some "orig")).vendor = some "orig" ∧
      (FS.mk none (some "orig")).backup = none) := by
  decide

/-- Helper: the run phase restores a pre-existing vendor tree when the
run completes normally and failed materializations leave the vendor path
absent. -/
theorem runPhase_restores (wd run : String) (obs : Version → CandObs)
    (solns : List OutcomeRecord) (orig : String) (hrun : ¬run = "")
    (hres : ∀ v l, (obs v).write = WriteOutcome.fail l → l = none) :
    (runPhase wd run obs solns ⟨some orig, none⟩).fs = ⟨some orig, none⟩ := by
  have hst : (runLoop run (tokenizeRun run) wd obs
      ⟨⟨none, some orig⟩, [⟨none, some orig⟩], false, []⟩ solns).fs =
      FS.mk none (some orig) := by
    simpa using runLoop_fs_restore run (tokenizeRun run) wd obs hres solns
      ⟨⟨none, some orig⟩, [⟨none, some orig⟩], false, []⟩ rfl
  simp only [runPhase]
  rw [if_pos (⟨hrun, rfl⟩ : run ≠ "" ∧ (FS.mk (some orig) none).vendor.isSome = true)]
  rw [if_neg (by simp : ¬((FS.mk (some orig) none).backup.isSome = true))]
  rw [if_pos (by rw [hst] : (runLoop run (tokenizeRun run) wd obs
      ⟨⟨none, some orig⟩, [⟨none, some orig⟩], false, []⟩ solns).fs.vendor = none)]
  show FS.mk (runLoop run (tokenizeRun run) wd obs
      ⟨⟨none, some orig⟩, [⟨none, some orig⟩], false, []⟩ solns).fs.backup none = _
  rw [hst]

/-- C1 (amended): for a run with a pre-existing vendor tree, a requested
validation command and an initially absent backup path, if the run
completes normally (the deferred restore runs) and every failed tree
materialization leaves the vendor path absent, then afterwards the
original tree is back at its path with its original contents and the
backup path is gone. -/
theorem vendor_restore_normal_completion (wd run : String) (root : ProjectRoot)
    (bm sv : String → Version → Bool) (c : Constraint) (base : ConstraintMap)
    (vlist : List Version) (solve : ConstraintMap → Version → SolveRes)
    (obs : Version → CandObs) (orig : String) (hrun : ¬run = "")
    (hres : ∀ v l, (obs v).write = WriteOutcome.fail l → l = none) :
    (gtaRun wd run root bm sv c base vlist solve obs ⟨some orig, none⟩).phase.fs =
      ⟨some orig, none⟩ := by
  cases hfc : filterAndCheck (Constraint.matches bm sv c) vlist with
  | error e => simp [gtaRun, hfc]
  | ok vl =>
    simp only [gtaRun, hfc]
    exact runPhase_restores wd run obs _ orig hrun hres

/-- Witness for C1 (amended) at a concrete run: one candidate, tree
written and removed, command exits 0, original vendor tree restored. -/
theorem vendor_restore_normal_completion_witness :
    (gtaRun "w" "go test" "r" (fun _ _ => true) (fun _ _ => true) Constraint.any []
      ["v1"] (fun _ _ => SolveRes.ok ⟨[]⟩)
      (fun _ => ⟨WriteOutcome.ok "tree", CmdOutcome.exited 0 ""⟩)
      ⟨some "orig", none⟩).phase.fs = ⟨some "orig", none⟩ :=
  vendor_restore_normal_completion "w" "go test" "r" (fun _ _ => true)
    (fun _ _ => true) Constraint.any [] ["v1"] (fun _ _ => SolveRes.ok ⟨[]⟩)
    (fun _ => ⟨WriteOutcome.ok "tree", CmdOutcome.exited 0 ""⟩) "orig"
    (by decide) (fun _ _ h => nomatch h)

/-- C8: the godep loader normalizes every import path, keeps only the
first occurrence per normalized identifier (later duplicates silently
dropped — the emitted names are duplicate-free and each lock revision is
the first matching entry's pin), and emits manifest constraints with no
explicit version requirement, the pinned revision going only to the
paired lock. -/
theorem godep_metadata_pair (f : String → String) (deps : List GodepDependency) :
    asMetadataPair f deps =
      ((keepFirstByKey f [] deps).map (fun d => ⟨f d.importPath, ""⟩),
       (keepFirstByKey f [] deps).map (fun d => ⟨f d.importPath, d.rev⟩)) ∧
    (∀ cd ∈ (asMetadataPair f deps).1, cd.version = "") ∧
    ((asMetadataPair f deps).1.map (fun cd => cd.name)).Nodup ∧
    (∀ name : String,
      (asMetadataPair f deps).2.find? (fun cl => cl.name == name) =
        (deps.find? (fun d => f d.importPath == name)).map
          (fun d => ⟨f d.importPath, d.rev⟩)) := by
  have hpair : asMetadataPair f deps =
      ((keepFirstByKey f [] deps).map (fun d => ⟨f d.importPath, ""⟩),
       (keepFirstByKey f [] deps).map (fun d => ⟨f d.importPath, d.rev⟩)) := by
    simpa [asMetadataPair] using amdLoop_eq f deps [] [] []
  refine ⟨hpair, ?_, ?_, ?_⟩
  · intro cd hcd
    rw [hpair] at hcd
    rcases List.mem_map.mp hcd with ⟨d, hd, rfl⟩
    rfl
  · rw [hpair]
    simpa [List.map_map, Function.comp] using (keepFirst_keys_nodup f deps []).1
  · intro name
    rw [hpair]
    show ((keepFirstByKey f [] deps).map (fun d => (⟨f d.importPath, d.rev⟩ : CfgLock))).find?
      (fun cl => cl.name == name) = _
    rw [List.find?_map]
    have hcomp : ((fun cl : CfgLock => cl.name == name) ∘
        (fun d : GodepDependency => (⟨f d.importPath, d.rev⟩ : CfgLock))) =
        (fun d : GodepDependency => f d.importPath == name) := rfl
    rw [hcomp, keepFirst_find f deps [] name (by simp)]

/-- Witness for C8: two entries normalizing to the same identifier keep
the first pin; constraints carry no version. -/
theorem godep_metadata_pair_witness :
    asMetadataPair id [⟨"a", "r1"⟩, ⟨"a", "r2"⟩, ⟨"b", "r3"⟩] =
      ([⟨"a", ""⟩, ⟨"b", ""⟩], [⟨"a", "r1"⟩, ⟨"b", "r3"⟩]) := by
  have h := (godep_metadata_pair id [⟨"a", "r1"⟩, ⟨"a", "r2"⟩, ⟨"b", "r3"⟩]).1
  exact h.trans (by decide)

end Gta
